import Mathlib

/-!
Shallow embedding of the GCD engine of `src/main.rs` (gcd_bench).

The Rust source implements, for every fixed-width unsigned and signed integer
type, two GCD algorithms:

* `gcd`        — Euclid's algorithm (`while m != 0 { m, n = n % m, m }`,
                 followed by `n.abs()` in the signed case);
* `binary_gcd` — Stein's algorithm (trailing-zero shifts, swap, subtract),
                 with a zero special case (`return m | n`, `.abs()` for signed)
                 and a signed-minimum pre-check (`return 1 << shift`).

Machine integers are embedded as `Nat` (unsigned, values `< 2 ^ w`) and `Int`
(signed two's complement, values in `[-2^(w-1), 2^(w-1))`), with wrapping
written out explicitly (`% 2 ^ w`, reinterpretation `ofU`) at the operations
where Rust release-mode overflow wraps: the final `.abs()` of the signed
Euclidean `gcd`, the `.abs()` of the zero case of the signed `binary_gcd`,
the `1 << shift` of the minimum pre-check, and the final `n << shift`.
Loops are embedded as structurally recursive functions on an explicit fuel
argument, so that every definition evaluates by kernel reduction; fuel
sufficiency is proved separately (the fuels used in the wrappers are shown to
be large enough, which is the termination argument of the source loops).

Overflow of `+`, `-`, `*`, `abs` and of a shift amount panics in debug
builds and wraps in release builds; overflow of `/` and `%` — reached here
only as `MIN % -1` in the signed Euclidean loop — panics in *every* build
mode.  The signed Euclidean `gcd` is therefore a partial function of its
inputs: `gcdSP` embeds it faithfully as an `Option`-valued function that is
`none` exactly where the program panics in release mode (the remainder
overflow), while `gcdSF`/`gcdS` are value-level totalizations that name the
returned value of every completing run (they agree with `gcdSP` wherever it
is `some`).

For each routine there is additionally a "checked" variant returning
`Option`, which returns `none` exactly where a debug build of the source
would trap: on `abs` of the minimum value, on `MIN % -1`, on a shift amount
not below the bit width, on an underflowing unsigned subtraction, and on a
non-terminating loop (fuel exhaustion).  `some` results of the checked
variants coincide with the wrapping variants.
-/

namespace GcdBench

/-! ### Trailing zeros

`v2F f n` is the number of trailing zero bits of `n` (the 2-adic valuation),
computed with fuel `f`; `f ≥ n` is always enough.  `trailingZeros w n` models
`n.trailing_zeros()` of a `w`-bit integer type: on `n = 0` it returns the bit
width `w`, as Rust does. -/

def v2F : Nat → Nat → Nat
  | 0, _ => 0
  | f + 1, n => if n % 2 = 1 ∨ n = 0 then 0 else v2F f (n / 2) + 1

def trailingZeros (w n : Nat) : Nat := if n = 0 then w else v2F n n

/-! ### Unsigned kinds (`implement_has_gcd_for_uints`) -/

/-- The Euclidean loop of the unsigned `gcd`:
`while m != 0 { let temp = m; m = n % temp; n = temp } ; n`. -/
def gcdUF : Nat → Nat → Nat → Nat
  | 0, _, n => n
  | f + 1, m, n => if m = 0 then n else gcdUF f (n % m) m

/-- Unsigned `gcd`.  Fuel `m + 1` suffices because the remainder strictly
decreases (`gcdUF_eq`). -/
def gcdU (m n : Nat) : Nat := gcdUF (m + 1) m n

/-- The main loop of `binary_gcd`:
`while m != 0 { m >>= m.trailing_zeros(); if n > m { swap(n, m) }; m -= n }`.
The state after one iteration starting from `(m, n)` with `m ≠ 0` and
`m1 = m >> m.trailing_zeros()` is `(n - m1, m1)` if `n > m1` (swap taken)
and `(m1 - n, n)` otherwise. -/
def steinLoopF (w : Nat) : Nat → Nat → Nat → Nat
  | 0, _, n => n
  | f + 1, m, n =>
    if m = 0 then n
    else
      let m1 := m >>> trailingZeros w m
      if n > m1 then steinLoopF w f (n - m1) m1
      else steinLoopF w f (m1 - n) n

/-- Unsigned `binary_gcd`.  The final `n << shift` of the source discards the
bits above the width, hence the `% 2 ^ w`. -/
def binary_gcdU (w m n : Nat) : Nat :=
  if m = 0 ∨ n = 0 then m ||| n
  else
    let shift := trailingZeros w (m ||| n)
    let n1 := n >>> trailingZeros w n
    (steinLoopF w (m + n1) m n1 <<< shift) % 2 ^ w

/-- Checked Euclidean loop: `none` on fuel exhaustion (nothing in the
unsigned loop body can trap). -/
def gcdUFC : Nat → Nat → Nat → Option Nat
  | 0, _, _ => none
  | f + 1, m, n => if m = 0 then some n else gcdUFC f (n % m) m

/-- Checked Stein loop: `none` on fuel exhaustion, on a shift amount that is
not below the bit width (`m >>= m.trailing_zeros()` with `m = 0` would shift
by `w`), or on an underflowing subtraction. -/
def steinLoopC (w : Nat) : Nat → Nat → Nat → Option Nat
  | 0, _, _ => none
  | f + 1, m, n =>
    if m = 0 then some n
    else if w ≤ trailingZeros w m then none
    else
      let m1 := m >>> trailingZeros w m
      if n > m1 then
        if m1 ≤ n then steinLoopC w f (n - m1) m1 else none
      else
        if n ≤ m1 then steinLoopC w f (m1 - n) n else none

/-- Checked unsigned `binary_gcd`: additionally checks the shift amounts of
`n >>= n.trailing_zeros()` and of the final `n << shift`. -/
def binary_gcdUC (w m n : Nat) : Option Nat :=
  if m = 0 ∨ n = 0 then some (m ||| n)
  else if w ≤ trailingZeros w n then none
  else
    let shift := trailingZeros w (m ||| n)
    let n1 := n >>> trailingZeros w n
    match steinLoopC w (m + n1) m n1 with
    | none => none
    | some r => if w ≤ shift then none else some ((r <<< shift) % 2 ^ w)

/-! ### Signed kinds (`implement_has_gcd_for_ints`)

A `w`-bit signed value is an `Int` in `[-2^(w-1), 2^(w-1))`.  `toU`/`ofU`
reinterpret between a signed value and its `w`-bit two's-complement pattern. -/

/-- `$t::min_value()`. -/
def minS (w : Nat) : Int := -((2 ^ (w - 1) : Nat) : Int)

/-- The representable range of the `w`-bit signed kind. -/
def inRange (w : Nat) (x : Int) : Prop :=
  minS w ≤ x ∧ x < ((2 ^ (w - 1) : Nat) : Int)

instance (w : Nat) (x : Int) : Decidable (inRange w x) :=
  inferInstanceAs (Decidable (minS w ≤ x ∧ x < ((2 ^ (w - 1) : Nat) : Int)))

/-- The `w`-bit two's-complement pattern of `x`, as a natural number. -/
def toU (w : Nat) (x : Int) : Nat := (x % ((2 ^ w : Nat) : Int)).toNat

/-- The signed value whose `w`-bit two's-complement pattern is `u`. -/
def ofU (w : Nat) (u : Nat) : Int :=
  if u < 2 ^ (w - 1) then (u : Int) else (u : Int) - ((2 ^ w : Nat) : Int)

/-- Bitwise `m | n` on signed values (OR of the two's-complement patterns). -/
def sor (w : Nat) (a b : Int) : Int := ofU w (toU w a ||| toU w b)

/-- Wrapping `.abs()`: the absolute value, except that `minS.abs()` wraps to
`minS` itself (release-mode behaviour of the source). -/
def wabs (w : Nat) (x : Int) : Int := if x = minS w then x else (x.natAbs : Int)

/-- `x.trailing_zeros()` on a signed value: trailing zeros of its pattern. -/
def tzS (w : Nat) (x : Int) : Nat := trailingZeros w (toU w x)

/-- Value-level totalization of the Euclidean loop of the signed `gcd`.
Rust's signed `%` is the truncated remainder `Int.tmod` wherever it is
defined; at the single overflowing input `MIN % -1` the program panics in
every build mode, while `Int.tmod` collapses that run to `0`.  `gcdSF` is
therefore only used to name the value of runs that do not hit that overflow;
the faithful partial loop is `gcdSC_go` and the faithful signed `gcd` is
`gcdSP`. -/
def gcdSF : Nat → Int → Int → Int
  | 0, _, n => n
  | f + 1, m, n => if m = 0 then n else gcdSF f (Int.tmod n m) m

/-- Value-level totalization of the signed `gcd` (Euclidean loop followed by
the wrapping `n.abs()`): the value the program returns on every run that
completes.  The faithful partial function is `gcdSP`. -/
def gcdS (w : Nat) (a b : Int) : Int := wabs w (gcdSF (a.natAbs + 1) a b)

/-- Signed `binary_gcd`.  Zero case `(m | n).abs()` (wrapping); minimum
pre-check `if m == MIN || n == MIN { return 1 << shift }`; otherwise both
operands are replaced by their (now representable) absolute values, after
which the loop runs on nonnegative values and coincides with the unsigned
loop on the corresponding naturals; the final `n << shift` reinterprets the
`w` low bits as a signed value. -/
def binary_gcdS (w : Nat) (a b : Int) : Int :=
  if a = 0 ∨ b = 0 then wabs w (sor w a b)
  else
    let shift := tzS w (sor w a b)
    if a = minS w ∨ b = minS w then ofU w ((1 <<< shift) % 2 ^ w)
    else
      let m := (wabs w a).natAbs
      let n := (wabs w b).natAbs
      let n1 := n >>> trailingZeros w n
      ofU w ((steinLoopF w (m + n1) m n1 <<< shift) % 2 ^ w)

/-- Checked `.abs()`: `none` exactly on the minimum value, where a debug
build of the source overflows. -/
def cabs (w : Nat) (x : Int) : Option Int :=
  if x = minS w then none else some ((x.natAbs : Nat) : Int)

/-- The signed Euclidean loop with its genuine error path: `none` on fuel
exhaustion and on the one overflowing remainder `MIN % -1` (`n % temp` with
`n = MIN`, `temp = -1`), which panics in every build mode — remainder
overflow, unlike `abs` overflow, is not gated by debug overflow checks. -/
def gcdSC_go (w : Nat) : Nat → Int → Int → Option Int
  | 0, _, _ => none
  | f + 1, m, n =>
    if m = 0 then some n
    else if n = minS w ∧ m = -1 then none
    else gcdSC_go w f (Int.tmod n m) m

/-- The signed `gcd` as the release build runs it, as a partial function:
`some r` means the program returns `r` (the final `n.abs()` wrapping at the
minimum value), `none` means it panics on the remainder overflow. -/
def gcdSP (w : Nat) (a b : Int) : Option Int :=
  match gcdSC_go w (a.natAbs + 1) a b with
  | none => none
  | some r => some (wabs w r)

/-- Checked (debug-build) signed `gcd`: the loop followed by the checked
`abs`, which additionally traps on `abs` of the minimum value. -/
def gcdSC (w : Nat) (a b : Int) : Option Int :=
  match gcdSC_go w (a.natAbs + 1) a b with
  | none => none
  | some r => cabs w r

/-- Checked signed `binary_gcd`. -/
def binary_gcdSC (w : Nat) (a b : Int) : Option Int :=
  if a = 0 ∨ b = 0 then cabs w (sor w a b)
  else
    let shift := tzS w (sor w a b)
    if a = minS w ∨ b = minS w then
      if w ≤ shift then none else some (ofU w ((1 <<< shift) % 2 ^ w))
    else
      match cabs w a, cabs w b with
      | some ma, some mb =>
        if w ≤ trailingZeros w mb.natAbs then none
        else
          let n1 := mb.natAbs >>> trailingZeros w mb.natAbs
          match steinLoopC w (ma.natAbs + n1) ma.natAbs n1 with
          | none => none
          | some r => if w ≤ shift then none else some (ofU w ((r <<< shift) % 2 ^ w))
      | _, _ => none

/-! ## Trailing-zero lemmas

`v2F` with enough fuel computes the exact number of trailing zero bits:
`2 ^ v2F f n` divides `n` and the quotient is odd, and these two properties
determine the value uniquely. -/

theorem v2F_spec : ∀ f n, n ≠ 0 → n ≤ f → 2 ^ v2F f n ∣ n ∧ (n / 2 ^ v2F f n) % 2 = 1 := by
  intro f
  induction f with
  | zero => intro n hn hf; omega
  | succ f ih =>
    intro n hn hf
    by_cases h : n % 2 = 1 ∨ n = 0
    · have h1 : n % 2 = 1 := by rcases h with h | h; exact h; exact absurd h hn
      simp only [v2F, if_pos h, pow_zero, Nat.div_one]
      exact ⟨one_dvd n, h1⟩
    · simp only [v2F, if_neg h]
      push_neg at h
      have h2 : n % 2 = 0 := by omega
      have hn2 : n / 2 ≠ 0 := by omega
      have hf2 : n / 2 ≤ f := by omega
      obtain ⟨hdvd, hodd⟩ := ih (n / 2) hn2 hf2
      obtain ⟨c, hc⟩ := hdvd
      constructor
      · refine ⟨c, ?_⟩
        rw [pow_succ', mul_assoc, ← hc]
        omega
      · rw [pow_succ', ← Nat.div_div_eq_div_mul]
        exact hodd

theorem trailingZeros_spec (w n : Nat) (hn : n ≠ 0) :
    2 ^ trailingZeros w n ∣ n ∧ (n / 2 ^ trailingZeros w n) % 2 = 1 := by
  rw [trailingZeros, if_neg hn]
  exact v2F_spec n n hn le_rfl

theorem isV2_le {n j k : Nat} (h1 : 2 ^ k ∣ n) (h2 : (n / 2 ^ k) % 2 = 1)
    (hj : 2 ^ j ∣ n) : j ≤ k := by
  by_contra hlt
  push_neg at hlt
  obtain ⟨c, hc⟩ := hj
  have hq : n / 2 ^ k = 2 ^ (j - k) * c := by
    rw [hc]
    have h2j : (2 : Nat) ^ j = 2 ^ k * 2 ^ (j - k) := by
      rw [← pow_add]
      congr 1
      omega
    rw [h2j, mul_assoc, Nat.mul_div_cancel_left _ (Nat.two_pow_pos k)]
  have hjk : j - k = (j - k - 1) + 1 := by omega
  rw [hq, hjk, pow_succ', mul_assoc] at h2
  omega

theorem isV2_unique {n j k : Nat} (h1 : 2 ^ j ∣ n) (h2 : (n / 2 ^ j) % 2 = 1)
    (h3 : 2 ^ k ∣ n) (h4 : (n / 2 ^ k) % 2 = 1) : j = k :=
  Nat.le_antisymm (isV2_le h3 h4 h1) (isV2_le h1 h2 h3)

theorem trailingZeros_lt {w n : Nat} (hn : n ≠ 0) (hw : n < 2 ^ w) :
    trailingZeros w n < w := by
  obtain ⟨hd, _⟩ := trailingZeros_spec w n hn
  have h1 : 2 ^ trailingZeros w n ≤ n := Nat.le_of_dvd (Nat.pos_of_ne_zero hn) hd
  have h2 : 2 ^ trailingZeros w n < 2 ^ w := lt_of_le_of_lt h1 hw
  exact (Nat.pow_lt_pow_iff_right (by norm_num)).mp h2

theorem trailingZeros_two_pow (w k : Nat) : trailingZeros w (2 ^ k) = k := by
  obtain ⟨hd, ho⟩ := trailingZeros_spec w (2 ^ k) (Nat.two_pow_pos k).ne'
  refine isV2_unique hd ho dvd_rfl ?_
  rw [Nat.div_self (Nat.two_pow_pos k)]

theorem or_ne_zero_left {m : Nat} (n : Nat) (hm : m ≠ 0) : m ||| n ≠ 0 := by
  intro h
  apply hm
  apply Nat.eq_of_testBit_eq
  intro i
  have h2 := congrArg (fun x => Nat.testBit x i) h
  simp only [Nat.testBit_or, Nat.zero_testBit, Bool.or_eq_false_iff] at h2
  simp [h2.1]

theorem two_pow_succ_dvd_iff {x k : Nat} : 2 ^ (k + 1) ∣ x ↔ x % 2 = 0 ∧ 2 ^ k ∣ x / 2 := by
  constructor
  · rintro ⟨c, rfl⟩
    rw [pow_succ', mul_assoc]
    constructor
    · omega
    · rw [Nat.mul_div_cancel_left _ (by norm_num : (0:Nat) < 2)]
      exact Dvd.intro c rfl
  · rintro ⟨h1, c, hc⟩
    refine ⟨c, ?_⟩
    rw [pow_succ', mul_assoc, ← hc]
    omega

theorem two_pow_dvd_or_iff : ∀ (k m n : Nat), 2 ^ k ∣ (m ||| n) ↔ 2 ^ k ∣ m ∧ 2 ^ k ∣ n := by
  intro k
  induction k with
  | zero => simp
  | succ k ih =>
    intro m n
    rw [two_pow_succ_dvd_iff, two_pow_succ_dvd_iff (x := m), two_pow_succ_dvd_iff (x := n),
      Nat.or_div_two, ih]
    have hor := @Nat.or_mod_two_eq_one m n
    constructor
    · rintro ⟨h1, h2, h3⟩
      have hmn : ¬(m % 2 = 1 ∨ n % 2 = 1) := by
        intro hc
        have := hor.mpr hc
        omega
      push_neg at hmn
      exact ⟨⟨by omega, h2⟩, ⟨by omega, h3⟩⟩
    · rintro ⟨⟨h1, h2⟩, h3, h4⟩
      refine ⟨?_, h2, h4⟩
      have hne : ¬((m ||| n) % 2 = 1) := by
        intro hc
        rcases hor.mp hc with h | h <;> omega
      omega

theorem trailingZeros_or {w m n : Nat} (hm : m ≠ 0) (hn : n ≠ 0) :
    trailingZeros w (m ||| n) = min (trailingZeros w m) (trailingZeros w n) := by
  obtain ⟨hmd, hmo⟩ := trailingZeros_spec w m hm
  obtain ⟨hnd, hno⟩ := trailingZeros_spec w n hn
  obtain ⟨hod, hoo⟩ := trailingZeros_spec w (m ||| n) (or_ne_zero_left n hm)
  have h1 := (two_pow_dvd_or_iff _ m n).mp hod
  have h2 : trailingZeros w (m ||| n) ≤ trailingZeros w m := isV2_le hmd hmo h1.1
  have h3 : trailingZeros w (m ||| n) ≤ trailingZeros w n := isV2_le hnd hno h1.2
  have h4 : 2 ^ min (trailingZeros w m) (trailingZeros w n) ∣ (m ||| n) := by
    refine (two_pow_dvd_or_iff _ m n).mpr ⟨?_, ?_⟩
    · exact dvd_trans (pow_dvd_pow 2 (Nat.min_le_left _ _)) hmd
    · exact dvd_trans (pow_dvd_pow 2 (Nat.min_le_right _ _)) hnd
  have h5 : min (trailingZeros w m) (trailingZeros w n) ≤ trailingZeros w (m ||| n) :=
    isV2_le hod hoo h4
  omega

/-! ## Unsigned Euclid: `gcdU` computes `Nat.gcd`

The remainder strictly decreases, so fuel `m + 1` always suffices. -/

theorem gcdUF_eq : ∀ f m n, m < f → gcdUF f m n = Nat.gcd m n := by
  intro f
  induction f with
  | zero => intro m n h; omega
  | succ f ih =>
    intro m n h
    by_cases hm : m = 0
    · simp [gcdUF, hm]
    · rw [gcdUF, if_neg hm]
      have hlt : n % m < m := Nat.mod_lt n (Nat.pos_of_ne_zero hm)
      rw [ih (n % m) m (by omega)]
      exact (Nat.gcd_rec m n).symm

theorem gcdU_eq (m n : Nat) : gcdU m n = Nat.gcd m n :=
  gcdUF_eq (m + 1) m n (Nat.lt_succ_self m)

/-! ## The Stein loop computes `Nat.gcd`

Key facts: stripping the trailing zeros of the first argument does not change
the gcd when the second argument is odd, and `gcd (n - m) m = gcd n m`. -/

theorem gcd_shift {w m n : Nat} (hm : m ≠ 0) (hn : n % 2 = 1) :
    Nat.gcd (m >>> trailingZeros w m) n = Nat.gcd m n := by
  obtain ⟨hd, ho⟩ := trailingZeros_spec w m hm
  have cop : Nat.Coprime (2 ^ trailingZeros w m) n :=
    Nat.Coprime.pow_left _ (Nat.coprime_two_left.mpr (Nat.odd_iff.mpr hn))
  rw [Nat.shiftRight_eq_div_pow]
  conv_rhs => rw [← Nat.mul_div_cancel' hd]
  rw [Nat.Coprime.gcd_mul_left_cancel _ cop]

theorem steinLoop_eq (w : Nat) : ∀ f m n, n % 2 = 1 → m + n ≤ f →
    steinLoopF w f m n = Nat.gcd m n := by
  intro f
  induction f with
  | zero => intro m n hn hf; omega
  | succ f ih =>
    intro m n hn hf
    by_cases hm : m = 0
    · simp [steinLoopF, hm]
    · simp only [steinLoopF, if_neg hm]
      obtain ⟨hd, ho⟩ := trailingZeros_spec w m hm
      have hm1d : m >>> trailingZeros w m = m / 2 ^ trailingZeros w m :=
        Nat.shiftRight_eq_div_pow ..
      have hm1o : (m >>> trailingZeros w m) % 2 = 1 := by rw [hm1d]; exact ho
      have hm1le : m >>> trailingZeros w m ≤ m := by rw [hm1d]; exact Nat.div_le_self ..
      have hgcd : Nat.gcd (m >>> trailingZeros w m) n = Nat.gcd m n := gcd_shift hm hn
      by_cases hcmp : n > m >>> trailingZeros w m
      · rw [if_pos hcmp]
        rw [ih (n - m >>> trailingZeros w m) (m >>> trailingZeros w m) hm1o (by omega)]
        rw [Nat.gcd_sub_self_left (le_of_lt hcmp)]
        rw [Nat.gcd_comm n (m >>> trailingZeros w m), hgcd]
      · rw [if_neg hcmp]
        push_neg at hcmp
        rw [ih (m >>> trailingZeros w m - n) n hn (by omega)]
        rw [Nat.gcd_sub_self_left hcmp, hgcd]

theorem gcd_pow_mul_aux {j k a : Nat} (b : Nat) (hjk : j ≤ k) (ha : a % 2 = 1) :
    Nat.gcd (2 ^ j * a) (2 ^ k * b) = 2 ^ j * Nat.gcd a b := by
  have hk : (2 : Nat) ^ k = 2 ^ j * 2 ^ (k - j) := by
    rw [← pow_add]
    congr 1
    omega
  rw [hk, mul_assoc, Nat.gcd_mul_left]
  congr 1
  exact Nat.Coprime.gcd_mul_left_cancel_right b
    (Nat.Coprime.pow_left _ (Nat.coprime_two_left.mpr (Nat.odd_iff.mpr ha)))

theorem gcd_pow_mul {j k a b : Nat} (ha : a % 2 = 1) (hb : b % 2 = 1) :
    Nat.gcd (2 ^ j * a) (2 ^ k * b) = 2 ^ min j k * Nat.gcd a b := by
  rcases Nat.le_total j k with h | h
  · rw [gcd_pow_mul_aux b h ha, Nat.min_eq_left h]
  · rw [Nat.gcd_comm, gcd_pow_mul_aux a h hb, Nat.gcd_comm b a, Nat.min_eq_right h]

/-- The whole non-zero branch of `binary_gcd` on naturals: strip the trailing
zeros of `n`, run the loop, shift back by `s = min` of the two trailing-zero
counts.  This is shared between the unsigned implementation (where
`s = trailingZeros w (m ||| n)`) and the signed one (where `s` comes from the
two's-complement patterns). -/
theorem stein_core {w m n s : Nat} (hm : m ≠ 0) (hn : n ≠ 0)
    (hs : s = min (trailingZeros w m) (trailingZeros w n)) :
    steinLoopF w (m + n >>> trailingZeros w n) m (n >>> trailingZeros w n) <<< s
      = Nat.gcd m n := by
  obtain ⟨hmd, hmo⟩ := trailingZeros_spec w m hm
  obtain ⟨hnd, hno⟩ := trailingZeros_spec w n hn
  have hn1d : n >>> trailingZeros w n = n / 2 ^ trailingZeros w n :=
    Nat.shiftRight_eq_div_pow ..
  have hn1o : (n >>> trailingZeros w n) % 2 = 1 := by rw [hn1d]; exact hno
  have hloop : steinLoopF w (m + n >>> trailingZeros w n) m (n >>> trailingZeros w n)
      = Nat.gcd m (n >>> trailingZeros w n) :=
    steinLoop_eq w _ m _ hn1o le_rfl
  have h1 : Nat.gcd m (n >>> trailingZeros w n)
      = Nat.gcd (m / 2 ^ trailingZeros w m) (n >>> trailingZeros w n) := by
    have h2 := gcd_shift (w := w) hm hn1o
    rw [Nat.shiftRight_eq_div_pow] at h2
    exact h2.symm
  have hm_eq : m = 2 ^ trailingZeros w m * (m / 2 ^ trailingZeros w m) :=
    (Nat.mul_div_cancel' hmd).symm
  have hn_eq : n = 2 ^ trailingZeros w n * (n >>> trailingZeros w n) := by
    rw [hn1d]
    exact (Nat.mul_div_cancel' hnd).symm
  have hsplit : Nat.gcd m n = 2 ^ min (trailingZeros w m) (trailingZeros w n)
      * Nat.gcd (m / 2 ^ trailingZeros w m) (n >>> trailingZeros w n) := by
    conv_lhs => rw [hm_eq, hn_eq]
    exact gcd_pow_mul hmo hn1o
  rw [hloop, Nat.shiftLeft_eq, h1, hs, hsplit]
  exact Nat.mul_comm _ _

theorem binary_gcdU_eq {w m n : Nat} (hm : m < 2 ^ w) (hn : n < 2 ^ w) :
    binary_gcdU w m n = Nat.gcd m n := by
  by_cases h0 : m = 0 ∨ n = 0
  · rw [binary_gcdU, if_pos h0]
    rcases h0 with h | h <;> subst h <;> simp
  · push_neg at h0
    obtain ⟨hm0, hn0⟩ := h0
    rw [binary_gcdU, if_neg (by push_neg; exact ⟨hm0, hn0⟩)]
    show (steinLoopF w (m + n >>> trailingZeros w n) m (n >>> trailingZeros w n)
      <<< trailingZeros w (m ||| n)) % 2 ^ w = Nat.gcd m n
    rw [stein_core hm0 hn0 (trailingZeros_or hm0 hn0)]
    have hle : Nat.gcd m n ≤ m := Nat.le_of_dvd (Nat.pos_of_ne_zero hm0) (Nat.gcd_dvd_left m n)
    exact Nat.mod_eq_of_lt (lt_of_le_of_lt hle hm)

/-! ## Two's-complement helpers -/

theorem natAbs_tmod (a b : Int) : (Int.tmod a b).natAbs = a.natAbs % b.natAbs := by
  cases a with
  | ofNat m =>
    cases b with
    | ofNat n => rfl
    | negSucc n => rfl
  | negSucc m =>
    cases b with
    | ofNat n =>
      show (-(Int.ofNat (Nat.succ m % n))).natAbs = _
      rw [Int.natAbs_neg]
      rfl
    | negSucc n =>
      show (-(Int.ofNat (Nat.succ m % Nat.succ n))).natAbs = _
      rw [Int.natAbs_neg]
      rfl

theorem two_pow_split (w : Nat) (hw : 1 ≤ w) : (2 : Nat) ^ w = 2 ^ (w - 1) * 2 := by
  conv_lhs => rw [← Nat.sub_add_cancel hw]
  rw [pow_succ]

theorem natAbs_minS (w : Nat) : (minS w).natAbs = 2 ^ (w - 1) := by
  rw [minS, Int.natAbs_neg]
  exact Int.natAbs_ofNat _

theorem inRange_of_natAbs_lt {w : Nat} {x : Int} (h : x.natAbs < 2 ^ (w - 1)) :
    inRange w x := by
  simp only [inRange, minS]
  omega

theorem natAbs_le_of_inRange {w : Nat} {x : Int} (h : inRange w x) :
    x.natAbs ≤ 2 ^ (w - 1) := by
  simp only [inRange, minS] at h
  omega

theorem eq_minS_iff {w : Nat} {x : Int} (h : inRange w x) :
    x = minS w ↔ x.natAbs = 2 ^ (w - 1) := by
  simp only [inRange, minS] at h ⊢
  omega

theorem toU_lt (w : Nat) (x : Int) : toU w x < 2 ^ w := by
  unfold toU
  have h0 := Nat.two_pow_pos w
  have h1 : (0 : Int) < ((2 ^ w : Nat) : Int) := by omega
  have h2 := Int.emod_lt_of_pos x h1
  have h3 := Int.emod_nonneg x (by omega : ((2 ^ w : Nat) : Int) ≠ 0)
  omega

theorem toU_pos {w : Nat} {x : Int} (hx : 0 ≤ x) (hlt : x < ((2 ^ w : Nat) : Int)) :
    toU w x = x.natAbs := by
  unfold toU
  rw [Int.emod_eq_of_lt hx hlt]
  omega

theorem toU_neg {w : Nat} {x : Int} (hx : x < 0) (hge : -((2 ^ w : Nat) : Int) ≤ x) :
    toU w x = 2 ^ w - x.natAbs := by
  unfold toU
  have h1 : x % ((2 ^ w : Nat) : Int) = x + ((2 ^ w : Nat) : Int) := by
    have h2 : (x + ((2 ^ w : Nat) : Int) * 1) % ((2 ^ w : Nat) : Int)
        = x % ((2 ^ w : Nat) : Int) := Int.add_mul_emod_self_left x _ 1
    rw [mul_one] at h2
    rw [← h2]
    exact Int.emod_eq_of_lt (by omega) (by omega)
  rw [h1]
  omega

theorem toU_zero (w : Nat) : toU w 0 = 0 := by
  unfold toU
  simp

theorem ofU_toU {w : Nat} {x : Int} (hw : 1 ≤ w) (h : inRange w x) :
    ofU w (toU w x) = x := by
  have hp := two_pow_split w hw
  simp only [inRange, minS] at h
  rcases le_or_lt 0 x with hx | hx
  · rw [toU_pos hx (by omega)]
    unfold ofU
    rw [if_pos (by omega)]
    omega
  · rw [toU_neg hx (by omega)]
    unfold ofU
    rw [if_neg (by omega)]
    omega

theorem toU_ofU {w : Nat} {u : Nat} (hw : 1 ≤ w) (hu : u < 2 ^ w) :
    toU w (ofU w u) = u := by
  have hp := two_pow_split w hw
  unfold ofU
  by_cases h : u < 2 ^ (w - 1)
  · rw [if_pos h, toU_pos (by omega) (by omega)]
    omega
  · rw [if_neg h, toU_neg (by omega) (by omega)]
    omega

theorem toU_eq_zero_iff {w : Nat} {x : Int} (hw : 1 ≤ w) (h : inRange w x) :
    toU w x = 0 ↔ x = 0 := by
  have hp := two_pow_split w hw
  have h1 := Nat.two_pow_pos (w - 1)
  simp only [inRange, minS] at h
  rcases le_or_lt 0 x with hx | hx
  · rw [toU_pos hx (by omega)]
    omega
  · rw [toU_neg hx (by omega)]
    omega

theorem toU_minS {w : Nat} (hw : 1 ≤ w) : toU w (minS w) = 2 ^ (w - 1) := by
  have hp := two_pow_split w hw
  have h1 := Nat.two_pow_pos (w - 1)
  rw [minS, toU_neg (by omega) (by omega)]
  omega

theorem ofU_small {w u : Nat} (h : u < 2 ^ (w - 1)) : ofU w u = (u : Int) := by
  unfold ofU
  rw [if_pos h]

/-- The two's-complement negation `2 ^ w - n` has the same number of trailing
zeros as `n` itself (for `0 < n < 2 ^ w`). -/
theorem isV2_sub {w n k : Nat} (hpos : 0 < n) (hlt : n < 2 ^ w)
    (h1 : 2 ^ k ∣ n) (h2 : (n / 2 ^ k) % 2 = 1) :
    2 ^ k ∣ (2 ^ w - n) ∧ ((2 ^ w - n) / 2 ^ k) % 2 = 1 := by
  have hkw : k < w := by
    have hle : 2 ^ k ≤ n := Nat.le_of_dvd hpos h1
    exact (Nat.pow_lt_pow_iff_right (by norm_num)).mp (lt_of_le_of_lt hle hlt)
  obtain ⟨c, hc⟩ := h1
  have hco : c % 2 = 1 := by
    rwa [hc, Nat.mul_div_cancel_left _ (Nat.two_pow_pos k)] at h2
  have hw2 : (2 : Nat) ^ w = 2 ^ k * 2 ^ (w - k) := by
    rw [← pow_add]
    congr 1
    omega
  have hdiv : (2 ^ w - n) / 2 ^ k = 2 ^ (w - k) - c := by
    rw [hw2, hc, ← Nat.mul_sub, Nat.mul_div_cancel_left _ (Nat.two_pow_pos k)]
  refine ⟨Nat.dvd_sub' (hw2 ▸ Dvd.intro _ rfl) ⟨c, hc⟩, ?_⟩
  rw [hdiv]
  have hcle : c < 2 ^ (w - k) := by
    by_contra hge
    push_neg at hge
    have hmul : 2 ^ k * 2 ^ (w - k) ≤ 2 ^ k * c := Nat.mul_le_mul_left _ hge
    omega
  have hevens : (2 : Nat) ^ (w - k) % 2 = 0 := by
    have hwk : w - k = (w - k - 1) + 1 := by omega
    rw [hwk, pow_succ']
    omega
  omega

/-- On representable nonzero values, `trailing_zeros` of the two's-complement
pattern equals `trailing_zeros` of the absolute value. -/
theorem tzS_eq {w : Nat} {x : Int} (hw : 1 ≤ w) (h : inRange w x) (hx : x ≠ 0) :
    tzS w x = trailingZeros w x.natAbs := by
  have hp := two_pow_split w hw
  have hto : toU w x ≠ 0 := by
    rw [Ne, toU_eq_zero_iff hw h]
    exact hx
  obtain ⟨h1, h2⟩ := trailingZeros_spec w (toU w x) hto
  have hna : x.natAbs ≠ 0 := by omega
  obtain ⟨h3, h4⟩ := trailingZeros_spec w x.natAbs hna
  have hb : x.natAbs < 2 ^ w := by
    have := natAbs_le_of_inRange h
    omega
  rcases le_or_lt 0 x with hs | hs
  · have ht : toU w x = x.natAbs := by
      refine toU_pos hs ?_
      simp only [inRange, minS] at h
      omega
    unfold tzS
    rw [ht]
  · have ht : toU w x = 2 ^ w - x.natAbs := by
      refine toU_neg hs ?_
      simp only [inRange, minS] at h
      omega
    have h5 := isV2_sub (by omega) hb h3 h4
    rw [ht] at h1 h2
    unfold tzS
    rw [ht]
    exact isV2_unique h1 h2 h5.1 h5.2

theorem toU_sor {w : Nat} {a b : Int} (hw : 1 ≤ w) (ha : inRange w a) (hb : inRange w b) :
    toU w (sor w a b) = toU w a ||| toU w b := by
  unfold sor
  exact toU_ofU hw (Nat.or_lt_two_pow (toU_lt w a) (toU_lt w b))

theorem sor_zero_left {w : Nat} {b : Int} (hw : 1 ≤ w) (hb : inRange w b) :
    sor w 0 b = b := by
  unfold sor
  rw [toU_zero, Nat.zero_or]
  exact ofU_toU hw hb

theorem sor_zero_right {w : Nat} {a : Int} (hw : 1 ≤ w) (ha : inRange w a) :
    sor w a 0 = a := by
  unfold sor
  rw [toU_zero, Nat.or_zero]
  exact ofU_toU hw ha

/-! ## Signed Euclidean `gcd` -/

theorem gcdSF_natAbs : ∀ (f : Nat) (m n : Int), m.natAbs < f →
    (gcdSF f m n).natAbs = Nat.gcd m.natAbs n.natAbs := by
  intro f
  induction f with
  | zero => intro m n h; omega
  | succ f ih =>
    intro m n h
    by_cases hm : m = 0
    · subst hm
      simp [gcdSF]
    · simp only [gcdSF, if_neg hm]
      have hab := natAbs_tmod n m
      have hmpos : 0 < m.natAbs := by omega
      have hlt : (Int.tmod n m).natAbs < m.natAbs := by
        rw [hab]
        exact Nat.mod_lt _ hmpos
      rw [ih (Int.tmod n m) m (by omega), hab]
      exact (Nat.gcd_rec _ _).symm

theorem gcdSF_inRange {w : Nat} : ∀ (f : Nat) (m n : Int), inRange w m → inRange w n →
    inRange w (gcdSF f m n) := by
  intro f
  induction f with
  | zero => intro m n _ hn; exact hn
  | succ f ih =>
    intro m n hm hn
    by_cases h : m = 0
    · simp only [gcdSF, if_pos h]
      exact hn
    · simp only [gcdSF, if_neg h]
      refine ih _ _ ?_ hm
      refine inRange_of_natAbs_lt ?_
      have hab := natAbs_tmod n m
      have h1 := natAbs_le_of_inRange hm
      have hmpos : 0 < m.natAbs := by omega
      have h2 : (Int.tmod n m).natAbs < m.natAbs := by
        rw [hab]
        exact Nat.mod_lt _ hmpos
      omega

/-- What the signed Euclidean `gcd` actually returns: the true gcd of the
absolute values, wrapped to `minS` when that gcd is `2 ^ (w-1)` (the final
`n.abs()` wraps there). -/
theorem gcdS_eq {w : Nat} {a b : Int} (ha : inRange w a) (hb : inRange w b) :
    gcdS w a b = if Nat.gcd a.natAbs b.natAbs = 2 ^ (w - 1) then minS w
      else ((Nat.gcd a.natAbs b.natAbs : Nat) : Int) := by
  have hr : (gcdSF (a.natAbs + 1) a b).natAbs = Nat.gcd a.natAbs b.natAbs :=
    gcdSF_natAbs _ a b (Nat.lt_succ_self _)
  have hir : inRange w (gcdSF (a.natAbs + 1) a b) := gcdSF_inRange _ a b ha hb
  unfold gcdS wabs
  by_cases h : gcdSF (a.natAbs + 1) a b = minS w
  · have hg : Nat.gcd a.natAbs b.natAbs = 2 ^ (w - 1) := by
      rw [← hr, h, natAbs_minS]
    rw [if_pos h, if_pos hg]
    exact h
  · have hg : Nat.gcd a.natAbs b.natAbs ≠ 2 ^ (w - 1) := by
      intro hc
      exact h ((eq_minS_iff hir).mpr (by rw [hr]; exact hc))
    rw [if_neg h, if_neg hg, hr]

theorem wabs_eq {w : Nat} {x : Int} (h : inRange w x) :
    wabs w x = if x.natAbs = 2 ^ (w - 1) then minS w else ((x.natAbs : Nat) : Int) := by
  unfold wabs
  by_cases hx : x = minS w
  · rw [if_pos hx, if_pos ((eq_minS_iff h).mp hx), hx]
  · rw [if_neg hx, if_neg (fun hc => hx ((eq_minS_iff h).mpr hc))]

/-! ## Signed `binary_gcd` -/

/-- Zeta-reduced form of `binary_gcdS`. -/
theorem binary_gcdS_def (w : Nat) (a b : Int) :
    binary_gcdS w a b =
      if a = 0 ∨ b = 0 then wabs w (sor w a b)
      else if a = minS w ∨ b = minS w then ofU w ((1 <<< tzS w (sor w a b)) % 2 ^ w)
      else ofU w ((steinLoopF w
          ((wabs w a).natAbs + (wabs w b).natAbs >>> trailingZeros w (wabs w b).natAbs)
          (wabs w a).natAbs ((wabs w b).natAbs >>> trailingZeros w (wabs w b).natAbs)
        <<< tzS w (sor w a b)) % 2 ^ w) := rfl

theorem binary_gcdS_zero_left {w : Nat} {b : Int} (hw : 1 ≤ w) (hb : inRange w b) :
    binary_gcdS w 0 b = wabs w b := by
  rw [binary_gcdS_def, if_pos (Or.inl rfl), sor_zero_left hw hb]

theorem binary_gcdS_zero_right {w : Nat} {a : Int} (hw : 1 ≤ w) (ha : inRange w a) :
    binary_gcdS w a 0 = wabs w a := by
  rw [binary_gcdS_def, if_pos (Or.inr rfl), sor_zero_right hw ha]

/-- The `shift` of the signed `binary_gcd` is the minimum of the trailing-zero
counts of the two absolute values. -/
theorem tzS_sor_eq {w : Nat} {a b : Int} (hw : 1 ≤ w) (ha : inRange w a) (hb : inRange w b)
    (ha0 : a ≠ 0) (hb0 : b ≠ 0) :
    tzS w (sor w a b) = min (trailingZeros w a.natAbs) (trailingZeros w b.natAbs) := by
  have htoa : toU w a ≠ 0 := by
    rw [Ne, toU_eq_zero_iff hw ha]
    exact ha0
  have htob : toU w b ≠ 0 := by
    rw [Ne, toU_eq_zero_iff hw hb]
    exact hb0
  have e1 := tzS_eq hw ha ha0
  have e2 := tzS_eq hw hb hb0
  unfold tzS at e1 e2 ⊢
  rw [toU_sor hw ha hb, trailingZeros_or htoa htob, e1, e2]

theorem tzS_sor_le {w : Nat} {a b : Int} (hw : 1 ≤ w) (ha : inRange w a) (hb : inRange w b)
    (ha0 : a ≠ 0) (hb0 : b ≠ 0) : tzS w (sor w a b) ≤ w - 1 := by
  rw [tzS_sor_eq hw ha hb ha0 hb0]
  have hp := two_pow_split w hw
  have hna : a.natAbs ≠ 0 := by omega
  have hlt : trailingZeros w a.natAbs < w := by
    refine trailingZeros_lt hna ?_
    have := natAbs_le_of_inRange ha
    omega
  omega

/-- The minimum pre-check branch returns `1 << shift` (wrapping to `minS`
exactly when `shift = w - 1`). -/
theorem binary_gcdS_minBranch {w : Nat} {a b : Int} (hw : 1 ≤ w) (ha : inRange w a)
    (hb : inRange w b) (ha0 : a ≠ 0) (hb0 : b ≠ 0) (hm : a = minS w ∨ b = minS w) :
    binary_gcdS w a b = if tzS w (sor w a b) = w - 1 then minS w
      else ((2 ^ tzS w (sor w a b) : Nat) : Int) := by
  have hp := two_pow_split w hw
  have hsle : tzS w (sor w a b) ≤ w - 1 := tzS_sor_le hw ha hb ha0 hb0
  rw [binary_gcdS_def, if_neg (by push_neg; exact ⟨ha0, hb0⟩), if_pos hm]
  have h1s : (1 <<< tzS w (sor w a b)) % 2 ^ w = 2 ^ tzS w (sor w a b) := by
    rw [Nat.shiftLeft_eq, one_mul]
    exact Nat.mod_eq_of_lt ((Nat.pow_lt_pow_iff_right (by norm_num)).mpr (by omega))
  rw [h1s]
  by_cases hcase : tzS w (sor w a b) = w - 1
  · rw [if_pos hcase, hcase]
    unfold ofU
    rw [if_neg (lt_irrefl _)]
    unfold minS
    omega
  · rw [if_neg hcase]
    exact ofU_small ((Nat.pow_lt_pow_iff_right (by norm_num)).mpr (by omega))

/-- The general branch of the signed `binary_gcd` (both inputs nonzero,
neither the minimum) returns exactly the gcd of the absolute values. -/
theorem binary_gcdS_gen {w : Nat} {a b : Int} (hw : 1 ≤ w) (ha : inRange w a)
    (hb : inRange w b) (ha0 : a ≠ 0) (hb0 : b ≠ 0) (ham : a ≠ minS w) (hbm : b ≠ minS w) :
    binary_gcdS w a b = ((Nat.gcd a.natAbs b.natAbs : Nat) : Int) := by
  have hp := two_pow_split w hw
  have hna : a.natAbs ≠ 0 := by omega
  have hnb : b.natAbs ≠ 0 := by omega
  have hnal : a.natAbs < 2 ^ (w - 1) := by
    have h1 := natAbs_le_of_inRange ha
    have h2 : a.natAbs ≠ 2 ^ (w - 1) := fun hc => ham ((eq_minS_iff ha).mpr hc)
    omega
  rw [binary_gcdS_def, if_neg (by push_neg; exact ⟨ha0, hb0⟩),
    if_neg (by push_neg; exact ⟨ham, hbm⟩)]
  have hwa : (wabs w a).natAbs = a.natAbs := by
    rw [wabs, if_neg ham, Int.natAbs_ofNat]
  have hwb : (wabs w b).natAbs = b.natAbs := by
    rw [wabs, if_neg hbm, Int.natAbs_ofNat]
  rw [hwa, hwb, stein_core hna hnb (tzS_sor_eq hw ha hb ha0 hb0)]
  have hglt : Nat.gcd a.natAbs b.natAbs < 2 ^ (w - 1) := by
    have := Nat.le_of_dvd (Nat.pos_of_ne_zero hna) (Nat.gcd_dvd_left a.natAbs b.natAbs)
    omega
  rw [Nat.mod_eq_of_lt (by omega)]
  exact ofU_small hglt

/-- In the minimum pre-check branch, `1 << shift` is in fact the gcd of the
absolute values: the minimum value is a power of two, so the gcd reduces to
the shared power-of-two factor. -/
theorem gcd_min_eq_pow {w : Nat} {a b : Int} (hw : 1 ≤ w) (ha : inRange w a)
    (hb : inRange w b) (ha0 : a ≠ 0) (hb0 : b ≠ 0) (hm : a = minS w ∨ b = minS w) :
    Nat.gcd a.natAbs b.natAbs
      = 2 ^ min (trailingZeros w a.natAbs) (trailingZeros w b.natAbs) := by
  have key : ∀ n : Nat, n ≠ 0 → n < 2 ^ w →
      Nat.gcd (2 ^ (w - 1)) n = 2 ^ min (w - 1) (trailingZeros w n) := by
    intro n hn hnw
    obtain ⟨hd, ho⟩ := trailingZeros_spec w n hn
    have hn_eq : n = 2 ^ trailingZeros w n * (n / 2 ^ trailingZeros w n) :=
      (Nat.mul_div_cancel' hd).symm
    conv_lhs => rw [hn_eq, show (2 : Nat) ^ (w - 1) = 2 ^ (w - 1) * 1 from (mul_one _).symm]
    rw [gcd_pow_mul (by omega) ho, Nat.gcd_one_left, mul_one]
  have hblt : b.natAbs < 2 ^ w := by
    have hp := two_pow_split w hw
    have := natAbs_le_of_inRange hb
    omega
  have halt : a.natAbs < 2 ^ w := by
    have hp := two_pow_split w hw
    have := natAbs_le_of_inRange ha
    omega
  have hna : a.natAbs ≠ 0 := by omega
  have hnb : b.natAbs ≠ 0 := by omega
  rcases hm with h | h
  · have hva : a.natAbs = 2 ^ (w - 1) := by rw [h, natAbs_minS]
    rw [hva, trailingZeros_two_pow, key b.natAbs hnb hblt]
  · have hvb : b.natAbs = 2 ^ (w - 1) := by rw [h, natAbs_minS]
    rw [hvb, trailingZeros_two_pow, Nat.gcd_comm, key a.natAbs hna halt, Nat.min_comm]

/-- Agreement of the two signed implementations on every representable pair. -/
theorem agree_signed {w : Nat} {a b : Int} (hw : 1 ≤ w) (ha : inRange w a)
    (hb : inRange w b) : binary_gcdS w a b = gcdS w a b := by
  by_cases ha0 : a = 0
  · subst ha0
    rw [binary_gcdS_zero_left hw hb, gcdS_eq ha hb, wabs_eq hb]
    simp
  by_cases hb0 : b = 0
  · subst hb0
    rw [binary_gcdS_zero_right hw ha, gcdS_eq ha hb, wabs_eq ha]
    simp
  by_cases hm : a = minS w ∨ b = minS w
  · rw [binary_gcdS_minBranch hw ha hb ha0 hb0 hm, gcdS_eq ha hb]
    have key2 : Nat.gcd a.natAbs b.natAbs = 2 ^ tzS w (sor w a b) := by
      rw [tzS_sor_eq hw ha hb ha0 hb0]
      exact gcd_min_eq_pow hw ha hb ha0 hb0 hm
    rw [key2]
    by_cases hc : tzS w (sor w a b) = w - 1
    · rw [if_pos hc, if_pos (by rw [hc])]
    · rw [if_neg hc, if_neg (fun hcc => hc (Nat.pow_right_injective le_rfl hcc))]
  · push_neg at hm
    rw [binary_gcdS_gen hw ha hb ha0 hb0 hm.1 hm.2, gcdS_eq ha hb]
    have hna : a.natAbs ≠ 0 := by omega
    have hnal : a.natAbs < 2 ^ (w - 1) := by
      have h1 := natAbs_le_of_inRange ha
      have h2 : a.natAbs ≠ 2 ^ (w - 1) := fun hc => hm.1 ((eq_minS_iff ha).mpr hc)
      omega
    have hglt : Nat.gcd a.natAbs b.natAbs < 2 ^ (w - 1) := by
      have := Nat.le_of_dvd (Nat.pos_of_ne_zero hna) (Nat.gcd_dvd_left a.natAbs b.natAbs)
      omega
    rw [if_neg (Nat.ne_of_lt hglt)]

/-! ## Checked variants: absence of traps

A `some` result of a checked routine means a debug build performs no
overflowing `abs`, no overflowing remainder, no out-of-range shift amount, no
underflowing subtraction, and that the loop terminates. -/

theorem gcdUFC_eq : ∀ f m n, m < f → gcdUFC f m n = some (gcdU m n) := by
  intro f
  induction f with
  | zero => intro m n h; omega
  | succ f ih =>
    intro m n h
    by_cases hm : m = 0
    · subst hm
      rw [gcdU_eq, Nat.gcd_zero_left]
      simp [gcdUFC]
    · simp only [gcdUFC, if_neg hm]
      have hlt : n % m < m := Nat.mod_lt n (Nat.pos_of_ne_zero hm)
      rw [ih (n % m) m (by omega), gcdU_eq, gcdU_eq, ← Nat.gcd_rec]

theorem steinLoopC_eq (w : Nat) : ∀ f m n, n % 2 = 1 → m + n ≤ f → m < 2 ^ w → n < 2 ^ w →
    steinLoopC w f m n = some (steinLoopF w f m n) := by
  intro f
  induction f with
  | zero => intro m n hn hf _ _; omega
  | succ f ih =>
    intro m n hn hf hmw hnw
    by_cases hm : m = 0
    · simp [steinLoopC, steinLoopF, hm]
    · have htz : trailingZeros w m < w := trailingZeros_lt hm hmw
      simp only [steinLoopC, steinLoopF, if_neg hm, if_neg (by omega : ¬ w ≤ trailingZeros w m)]
      have hm1d : m >>> trailingZeros w m = m / 2 ^ trailingZeros w m :=
        Nat.shiftRight_eq_div_pow ..
      have hm1o : (m >>> trailingZeros w m) % 2 = 1 := by
        rw [hm1d]
        exact (trailingZeros_spec w m hm).2
      have hm1le : m >>> trailingZeros w m ≤ m := by
        rw [hm1d]
        exact Nat.div_le_self ..
      by_cases hcmp : n > m >>> trailingZeros w m
      · rw [if_pos hcmp, if_pos hcmp, if_pos (le_of_lt hcmp)]
        refine ih (n - m >>> trailingZeros w m) (m >>> trailingZeros w m) hm1o ?_ ?_ ?_
        · omega
        · exact lt_of_le_of_lt (Nat.sub_le n _) hnw
        · exact lt_of_le_of_lt hm1le hmw
      · push_neg at hcmp
        rw [if_neg (not_lt.mpr hcmp), if_neg (not_lt.mpr hcmp), if_pos hcmp]
        refine ih (m >>> trailingZeros w m - n) n hn ?_ ?_ ?_
        · omega
        · omega
        · exact hnw

/-- Zeta-reduced form of `binary_gcdUC`. -/
theorem binary_gcdUC_def (w m n : Nat) :
    binary_gcdUC w m n =
      if m = 0 ∨ n = 0 then some (m ||| n)
      else if w ≤ trailingZeros w n then none
      else
        match steinLoopC w (m + n >>> trailingZeros w n) m (n >>> trailingZeros w n) with
        | none => none
        | some r => if w ≤ trailingZeros w (m ||| n) then none
            else some ((r <<< trailingZeros w (m ||| n)) % 2 ^ w) := rfl

theorem binary_gcdUC_eq {w m n : Nat} (hm : m < 2 ^ w) (hn : n < 2 ^ w) :
    binary_gcdUC w m n = some (binary_gcdU w m n) := by
  by_cases h0 : m = 0 ∨ n = 0
  · rw [binary_gcdUC_def, if_pos h0, binary_gcdU, if_pos h0]
  · push_neg at h0
    obtain ⟨hm0, hn0⟩ := h0
    have htzn : trailingZeros w n < w := trailingZeros_lt hn0 hn
    have htzo : trailingZeros w (m ||| n) < w :=
      trailingZeros_lt (or_ne_zero_left n hm0) (Nat.or_lt_two_pow hm hn)
    have hn1o : (n >>> trailingZeros w n) % 2 = 1 := by
      rw [Nat.shiftRight_eq_div_pow]
      exact (trailingZeros_spec w n hn0).2
    have hn1le : n >>> trailingZeros w n ≤ n := by
      rw [Nat.shiftRight_eq_div_pow]
      exact Nat.div_le_self ..
    rw [binary_gcdUC_def, if_neg (by push_neg; exact ⟨hm0, hn0⟩),
      if_neg (by omega : ¬ w ≤ trailingZeros w n),
      steinLoopC_eq w _ m _ hn1o le_rfl hm (by omega)]
    show (if w ≤ trailingZeros w (m ||| n) then none
        else some ((steinLoopF w (m + n >>> trailingZeros w n) m (n >>> trailingZeros w n)
          <<< trailingZeros w (m ||| n)) % 2 ^ w)) = some (binary_gcdU w m n)
    rw [if_neg (by omega : ¬ w ≤ trailingZeros w (m ||| n)),
      binary_gcdU, if_neg (by push_neg; exact ⟨hm0, hn0⟩)]

theorem minS_neg (w : Nat) : minS w < 0 := by
  unfold minS
  have := Nat.two_pow_pos (w - 1)
  omega

theorem gcdSC_go_eq {w : Nat} : ∀ (f : Nat) (m n : Int), m.natAbs < f →
    m.natAbs < 2 ^ (w - 1) → (n = minS w → m ≠ -1) →
    gcdSC_go w f m n = some (gcdSF f m n) := by
  intro f
  induction f with
  | zero => intro m n h _ _; omega
  | succ f ih =>
    intro m n hf hI1 hI2
    by_cases hm : m = 0
    · simp [gcdSC_go, gcdSF, hm]
    · have htrap : ¬(n = minS w ∧ m = -1) := by
        rintro ⟨hn', hm'⟩
        exact (hI2 hn') hm'
      simp only [gcdSC_go, gcdSF, if_neg hm, if_neg htrap]
      have hab := natAbs_tmod n m
      have hmpos : 0 < m.natAbs := by omega
      have hlt : (Int.tmod n m).natAbs < m.natAbs := by
        rw [hab]
        exact Nat.mod_lt _ hmpos
      refine ih _ _ (by omega) (by omega) ?_
      intro hmin
      exfalso
      rw [hmin, natAbs_minS] at hI1
      omega

/-- On every pair except `(min, -1)` and `(-1, min)` the signed Euclidean
loop completes within `|a| + 1` iterations without hitting the remainder
overflow. -/
theorem gcdSC_go_complete {w : Nat} {a b : Int} (hw : 2 ≤ w) (ha : inRange w a)
    (hb : inRange w b) (h1 : ¬(a = minS w ∧ b = -1)) (h2 : ¬(a = -1 ∧ b = minS w)) :
    gcdSC_go w (a.natAbs + 1) a b = some (gcdSF (a.natAbs + 1) a b) := by
  have hw1 : 1 ≤ w := by omega
  have hpow2 : (2 : Nat) ^ (w - 1) ≥ 2 := by
    have h4 : 1 ≤ w - 1 := by omega
    calc (2 : Nat) = 2 ^ 1 := by norm_num
    _ ≤ 2 ^ (w - 1) := Nat.pow_le_pow_right (by norm_num) h4
  by_cases hma : a.natAbs < 2 ^ (w - 1)
  · refine gcdSC_go_eq _ a b (Nat.lt_succ_self _) hma ?_
    intro hbmin ha1
    exact h2 ⟨ha1, hbmin⟩
  · have haMin : a = minS w := by
      refine (eq_minS_iff ha).mpr ?_
      have := natAbs_le_of_inRange ha
      omega
    have hm0 : a ≠ 0 := by
      rw [haMin]
      have := minS_neg w
      omega
    have hne : ¬(b = minS w ∧ a = -1) := by
      rintro ⟨_, ha1⟩
      rw [haMin] at ha1
      unfold minS at ha1
      omega
    simp only [gcdSC_go, gcdSF, if_neg hm0, if_neg hne]
    have hab := natAbs_tmod b a
    have hnaa : a.natAbs = 2 ^ (w - 1) := by rw [haMin, natAbs_minS]
    have hmpos : 0 < a.natAbs := by omega
    have hlt : (Int.tmod b a).natAbs < a.natAbs := by
      rw [hab]
      exact Nat.mod_lt _ hmpos
    refine gcdSC_go_eq _ _ _ (by omega) (by omega) ?_
    intro _ hc
    have habs := congrArg Int.natAbs hc
    rw [natAbs_tmod] at habs
    have hble := natAbs_le_of_inRange hb
    have hb1 : b.natAbs = 1 := by
      rcases Nat.lt_or_ge b.natAbs (2 ^ (w - 1)) with hblt | hbge
      · rwa [hnaa, Nat.mod_eq_of_lt hblt] at habs
      · have hbe : b.natAbs = 2 ^ (w - 1) := by omega
        rw [hnaa, hbe, Nat.mod_self] at habs
        omega
    have hb' : b = 1 ∨ b = -1 := by omega
    rcases hb' with hb' | hb'
    · rw [hb', haMin] at hc
      unfold minS at hc
      rw [Int.tmod_neg, Int.tmod_eq_of_lt (by norm_num) (by omega)] at hc
      omega
    · exact h1 ⟨haMin, hb'⟩

theorem gcdSC_eq {w : Nat} {a b : Int} (hw : 2 ≤ w) (ha : inRange w a) (hb : inRange w b)
    (h1 : ¬(a = minS w ∧ b = -1)) (h2 : ¬(a = -1 ∧ b = minS w))
    (h3 : (a ≠ 0 ∧ a ≠ minS w) ∨ (b ≠ 0 ∧ b ≠ minS w) ∨ (a = 0 ∧ b = 0)) :
    gcdSC w a b = some (gcdS w a b) := by
  have hgo := gcdSC_go_complete hw ha hb h1 h2
  have hr : (gcdSF (a.natAbs + 1) a b).natAbs = Nat.gcd a.natAbs b.natAbs :=
    gcdSF_natAbs _ a b (Nat.lt_succ_self _)
  have hir : inRange w (gcdSF (a.natAbs + 1) a b) := gcdSF_inRange _ a b ha hb
  have hrne : gcdSF (a.natAbs + 1) a b ≠ minS w := by
    intro hc
    have hgeq : Nat.gcd a.natAbs b.natAbs = 2 ^ (w - 1) := by
      rw [← hr, hc, natAbs_minS]
    have hdva : 2 ^ (w - 1) ∣ a.natAbs := hgeq ▸ Nat.gcd_dvd_left a.natAbs b.natAbs
    have hdvb : 2 ^ (w - 1) ∣ b.natAbs := hgeq ▸ Nat.gcd_dvd_right a.natAbs b.natAbs
    have hale := natAbs_le_of_inRange ha
    have hble := natAbs_le_of_inRange hb
    have hcasea : a.natAbs = 0 ∨ a.natAbs = 2 ^ (w - 1) := by
      rcases Nat.eq_zero_or_pos a.natAbs with h | h
      · exact Or.inl h
      · have := Nat.le_of_dvd h hdva
        omega
    have hcaseb : b.natAbs = 0 ∨ b.natAbs = 2 ^ (w - 1) := by
      rcases Nat.eq_zero_or_pos b.natAbs with h | h
      · exact Or.inl h
      · have := Nat.le_of_dvd h hdvb
        omega
    rcases h3 with ⟨h3a, h3b⟩ | ⟨h3a, h3b⟩ | ⟨h3a, h3b⟩
    · rcases hcasea with h | h
      · omega
      · exact h3b ((eq_minS_iff ha).mpr h)
    · rcases hcaseb with h | h
      · omega
      · exact h3b ((eq_minS_iff hb).mpr h)
    · rw [h3a, h3b] at hgeq
      simp at hgeq
      omega
  unfold gcdSC
  rw [hgo]
  show cabs w (gcdSF (a.natAbs + 1) a b) = some (gcdS w a b)
  rw [cabs, if_neg hrne]
  unfold gcdS wabs
  rw [if_neg hrne]

/-- The value of the faithful partial signed `gcd` on every completing run:
outside the two remainder-overflow pairs it returns `some` of the totalized
value. -/
theorem gcdSP_eq {w : Nat} {a b : Int} (hw : 2 ≤ w) (ha : inRange w a) (hb : inRange w b)
    (h1 : ¬(a = minS w ∧ b = -1)) (h2 : ¬(a = -1 ∧ b = minS w)) :
    gcdSP w a b = some (gcdS w a b) := by
  unfold gcdSP
  rw [gcdSC_go_complete hw ha hb h1 h2]
  rfl

theorem tmod_neg_one_minS {w : Nat} (hw : 2 ≤ w) : Int.tmod (-1) (minS w) = -1 := by
  have hpow2 : (2 : Nat) ^ (w - 1) ≥ 2 := by
    have h4 : 1 ≤ w - 1 := by omega
    calc (2 : Nat) = 2 ^ 1 := by norm_num
    _ ≤ 2 ^ (w - 1) := Nat.pow_le_pow_right (by norm_num) h4
  rw [minS, Int.tmod_neg]
  show -Int.ofNat (Nat.succ 0 % 2 ^ (w - 1)) = -1
  rw [Nat.mod_eq_of_lt (by omega)]
  rfl

theorem gcdSC_go_trap_neg_one {w : Nat} : ∀ f, 1 ≤ f →
    gcdSC_go w f (-1) (minS w) = none := by
  intro f hf
  cases f with
  | zero => omega
  | succ f =>
    show (if (-1 : Int) = 0 then some (minS w)
      else if minS w = minS w ∧ (-1 : Int) = -1 then none
      else gcdSC_go w f (Int.tmod (minS w) (-1)) (-1)) = none
    rw [if_neg (by norm_num : ¬(-1 : Int) = 0), if_pos ⟨rfl, rfl⟩]

theorem gcdSC_go_trap_minS {w : Nat} (hw : 2 ≤ w) : ∀ f, 2 ≤ f →
    gcdSC_go w f (minS w) (-1) = none := by
  intro f hf
  cases f with
  | zero => omega
  | succ f =>
    have hmne : minS w ≠ 0 := by
      have := minS_neg w
      omega
    have hpow2 : (2 : Nat) ^ (w - 1) ≥ 2 := by
      have h4 : 1 ≤ w - 1 := by omega
      calc (2 : Nat) = 2 ^ 1 := by norm_num
      _ ≤ 2 ^ (w - 1) := Nat.pow_le_pow_right (by norm_num) h4
    have hm1 : ¬((-1 : Int) = minS w ∧ minS w = -1) := by
      rintro ⟨h, _⟩
      unfold minS at h
      omega
    simp only [gcdSC_go]
    rw [if_neg hmne, if_neg hm1, tmod_neg_one_minS hw]
    exact gcdSC_go_trap_neg_one f (by omega)

/-- The remainder overflow of the signed Euclidean `gcd`: at `(min, -1)` and
`(-1, min)` the loop reaches `MIN % -1` and the program panics in every
build mode. -/
theorem gcdSP_trap {w : Nat} (hw : 2 ≤ w) :
    gcdSP w (minS w) (-1) = none ∧ gcdSP w (-1) (minS w) = none := by
  have hpow2 : (2 : Nat) ^ (w - 1) ≥ 2 := by
    have h4 : 1 ≤ w - 1 := by omega
    calc (2 : Nat) = 2 ^ 1 := by norm_num
    _ ≤ 2 ^ (w - 1) := Nat.pow_le_pow_right (by norm_num) h4
  constructor
  · unfold gcdSP
    rw [gcdSC_go_trap_minS hw ((minS w).natAbs + 1) (by rw [natAbs_minS]; omega)]
  · unfold gcdSP
    rw [gcdSC_go_trap_neg_one ((-1 : Int).natAbs + 1) (by omega)]

/-- At the two remainder-overflow pairs, `binary_gcd` itself returns `1`
(the minimum pre-check fires with `shift = 0`). -/
theorem binary_gcdS_min_negone {w : Nat} (hw : 2 ≤ w) :
    binary_gcdS w (minS w) (-1) = 1 ∧ binary_gcdS w (-1) (minS w) = 1 := by
  have hw1 : 1 ≤ w := by omega
  have hpow2 : (2 : Nat) ^ (w - 1) ≥ 2 := by
    have h4 : 1 ≤ w - 1 := by omega
    calc (2 : Nat) = 2 ^ 1 := by norm_num
    _ ≤ 2 ^ (w - 1) := Nat.pow_le_pow_right (by norm_num) h4
  have ha : inRange w (minS w) := by
    simp only [inRange, minS]
    omega
  have hb : inRange w (-1) := inRange_of_natAbs_lt (by omega)
  have ha0 : minS w ≠ 0 := by
    have := minS_neg w
    omega
  have hb0 : (-1 : Int) ≠ 0 := by norm_num
  have hna : (minS w).natAbs = 2 ^ (w - 1) := natAbs_minS w
  have htz1 : trailingZeros w (Int.natAbs (-1)) = 0 := by
    show trailingZeros w 1 = 0
    have h := trailingZeros_two_pow w 0
    rwa [pow_zero] at h
  constructor
  · rw [binary_gcdS_minBranch hw1 ha hb ha0 hb0 (Or.inl rfl)]
    have hsh : tzS w (sor w (minS w) (-1)) = 0 := by
      rw [tzS_sor_eq hw1 ha hb ha0 hb0, hna, trailingZeros_two_pow, htz1]
      exact Nat.min_eq_right (Nat.zero_le _)
    rw [hsh, if_neg (by omega : ¬(0 : Nat) = w - 1)]
    norm_num
  · rw [binary_gcdS_minBranch hw1 hb ha hb0 ha0 (Or.inr rfl)]
    have hsh : tzS w (sor w (-1) (minS w)) = 0 := by
      rw [tzS_sor_eq hw1 hb ha hb0 ha0, htz1, hna, trailingZeros_two_pow]
      exact Nat.min_eq_left (Nat.zero_le _)
    rw [hsh, if_neg (by omega : ¬(0 : Nat) = w - 1)]
    norm_num

/-- Zeta-reduced form of `binary_gcdSC`. -/
theorem binary_gcdSC_def (w : Nat) (a b : Int) :
    binary_gcdSC w a b =
      if a = 0 ∨ b = 0 then cabs w (sor w a b)
      else if a = minS w ∨ b = minS w then
        if w ≤ tzS w (sor w a b) then none
        else some (ofU w ((1 <<< tzS w (sor w a b)) % 2 ^ w))
      else
        match cabs w a, cabs w b with
        | some ma, some mb =>
          if w ≤ trailingZeros w mb.natAbs then none
          else
            match steinLoopC w (ma.natAbs + mb.natAbs >>> trailingZeros w mb.natAbs) ma.natAbs
                (mb.natAbs >>> trailingZeros w mb.natAbs) with
            | none => none
            | some r => if w ≤ tzS w (sor w a b) then none
                else some (ofU w ((r <<< tzS w (sor w a b)) % 2 ^ w))
        | _, _ => none := rfl

theorem binary_gcdSC_eq {w : Nat} {a b : Int} (hw : 2 ≤ w) (ha : inRange w a)
    (hb : inRange w b) (h1 : ¬(a = 0 ∧ b = minS w)) (h2 : ¬(a = minS w ∧ b = 0)) :
    binary_gcdSC w a b = some (binary_gcdS w a b) := by
  have hw1 : 1 ≤ w := by omega
  have hp := two_pow_split w hw1
  by_cases ha0 : a = 0
  · subst ha0
    have hbm : b ≠ minS w := fun hc => h1 ⟨rfl, hc⟩
    rw [binary_gcdSC_def, if_pos (Or.inl rfl), sor_zero_left hw1 hb,
      binary_gcdS_zero_left hw1 hb, cabs, if_neg hbm, wabs, if_neg hbm]
  by_cases hb0 : b = 0
  · subst hb0
    have ham : a ≠ minS w := fun hc => h2 ⟨hc, rfl⟩
    rw [binary_gcdSC_def, if_pos (Or.inr rfl), sor_zero_right hw1 ha,
      binary_gcdS_zero_right hw1 ha, cabs, if_neg ham, wabs, if_neg ham]
  have h0 : ¬(a = 0 ∨ b = 0) := by push_neg; exact ⟨ha0, hb0⟩
  have hsle : tzS w (sor w a b) ≤ w - 1 := tzS_sor_le hw1 ha hb ha0 hb0
  by_cases hm : a = minS w ∨ b = minS w
  · rw [binary_gcdSC_def, if_neg h0, if_pos hm,
      if_neg (by omega : ¬ w ≤ tzS w (sor w a b)),
      binary_gcdS_def, if_neg h0, if_pos hm]
  · push_neg at hm
    obtain ⟨ham, hbm⟩ := hm
    have hna : a.natAbs ≠ 0 := by omega
    have hnb : b.natAbs ≠ 0 := by omega
    have hnaw : a.natAbs < 2 ^ w := by
      have := natAbs_le_of_inRange ha
      omega
    have hnbw : b.natAbs < 2 ^ w := by
      have := natAbs_le_of_inRange hb
      omega
    have hca : cabs w a = some ((a.natAbs : Nat) : Int) := by rw [cabs, if_neg ham]
    have hcb : cabs w b = some ((b.natAbs : Nat) : Int) := by rw [cabs, if_neg hbm]
    rw [binary_gcdSC_def, if_neg h0, if_neg (by push_neg; exact ⟨ham, hbm⟩), hca, hcb]
    show (if w ≤ trailingZeros w (((b.natAbs : Nat) : Int)).natAbs then none
        else match steinLoopC w
            ((((a.natAbs : Nat) : Int)).natAbs
              + (((b.natAbs : Nat) : Int)).natAbs
                >>> trailingZeros w (((b.natAbs : Nat) : Int)).natAbs)
            (((a.natAbs : Nat) : Int)).natAbs
            ((((b.natAbs : Nat) : Int)).natAbs
              >>> trailingZeros w (((b.natAbs : Nat) : Int)).natAbs) with
          | none => none
          | some r => if w ≤ tzS w (sor w a b) then none
              else some (ofU w ((r <<< tzS w (sor w a b)) % 2 ^ w)))
      = some (binary_gcdS w a b)
    rw [Int.natAbs_ofNat, Int.natAbs_ofNat]
    have htzb : trailingZeros w b.natAbs < w := trailingZeros_lt hnb hnbw
    have hn1o : (b.natAbs >>> trailingZeros w b.natAbs) % 2 = 1 := by
      rw [Nat.shiftRight_eq_div_pow]
      exact (trailingZeros_spec w b.natAbs hnb).2
    have hn1le : b.natAbs >>> trailingZeros w b.natAbs ≤ b.natAbs := by
      rw [Nat.shiftRight_eq_div_pow]
      exact Nat.div_le_self ..
    rw [if_neg (by omega : ¬ w ≤ trailingZeros w b.natAbs),
      steinLoopC_eq w _ _ _ hn1o le_rfl hnaw (by omega)]
    show (if w ≤ tzS w (sor w a b) then none
        else some (ofU w ((steinLoopF w
            (a.natAbs + b.natAbs >>> trailingZeros w b.natAbs) a.natAbs
            (b.natAbs >>> trailingZeros w b.natAbs)
          <<< tzS w (sor w a b)) % 2 ^ w)))
      = some (binary_gcdS w a b)
    rw [if_neg (by omega : ¬ w ≤ tzS w (sor w a b)),
      binary_gcdS_def, if_neg h0, if_neg (by push_neg; exact ⟨ham, hbm⟩)]
    have hwa : (wabs w a).natAbs = a.natAbs := by
      rw [wabs, if_neg ham, Int.natAbs_ofNat]
    have hwb : (wabs w b).natAbs = b.natAbs := by
      rw [wabs, if_neg hbm, Int.natAbs_ofNat]
    rw [hwa, hwb]

/-! ## Remaining helpers for the claims -/

theorem gcdSF_fuel : ∀ f g (m n : Int), m.natAbs < f → m.natAbs < g →
    gcdSF f m n = gcdSF g m n := by
  intro f
  induction f with
  | zero => intro g m n h _; omega
  | succ f ih =>
    intro g m n hf hg
    cases g with
    | zero => omega
    | succ g =>
      by_cases hm : m = 0
      · simp [gcdSF, hm]
      · simp only [gcdSF, if_neg hm]
        have hab := natAbs_tmod n m
        have hmpos : 0 < m.natAbs := by omega
        have hlt : (Int.tmod n m).natAbs < m.natAbs := by
          rw [hab]
          exact Nat.mod_lt _ hmpos
        exact ih g (Int.tmod n m) m (by omega) (by omega)

theorem inRange_zero (w : Nat) : inRange w 0 := by
  refine inRange_of_natAbs_lt ?_
  rw [Int.natAbs_zero]
  exact Nat.two_pow_pos _

/-- The gcd of the absolute values equals `2 ^ (w-1)` exactly when both
inputs lie in `{0, minS w}` and they are not both zero. -/
theorem gcd_eq_pow_iff {w : Nat} {a b : Int} (ha : inRange w a) (hb : inRange w b) :
    Nat.gcd a.natAbs b.natAbs = 2 ^ (w - 1)
      ↔ ((a = 0 ∨ a = minS w) ∧ (b = 0 ∨ b = minS w) ∧ ¬(a = 0 ∧ b = 0)) := by
  have hale := natAbs_le_of_inRange ha
  have hble := natAbs_le_of_inRange hb
  have hpos := Nat.two_pow_pos (w - 1)
  constructor
  · intro hg
    have hdva : 2 ^ (w - 1) ∣ a.natAbs := hg ▸ Nat.gcd_dvd_left a.natAbs b.natAbs
    have hdvb : 2 ^ (w - 1) ∣ b.natAbs := hg ▸ Nat.gcd_dvd_right a.natAbs b.natAbs
    have hcasea : a.natAbs = 0 ∨ a.natAbs = 2 ^ (w - 1) := by
      rcases Nat.eq_zero_or_pos a.natAbs with h | h
      · exact Or.inl h
      · have := Nat.le_of_dvd h hdva
        omega
    have hcaseb : b.natAbs = 0 ∨ b.natAbs = 2 ^ (w - 1) := by
      rcases Nat.eq_zero_or_pos b.natAbs with h | h
      · exact Or.inl h
      · have := Nat.le_of_dvd h hdvb
        omega
    refine ⟨?_, ?_, ?_⟩
    · rcases hcasea with h | h
      · left
        omega
      · exact Or.inr ((eq_minS_iff ha).mpr h)
    · rcases hcaseb with h | h
      · left
        omega
      · exact Or.inr ((eq_minS_iff hb).mpr h)
    · rintro ⟨h1, h2⟩
      rw [h1, h2] at hg
      simp at hg
      omega
  · rintro ⟨h1, h2, h3⟩
    have hna : a.natAbs = 0 ∨ a.natAbs = 2 ^ (w - 1) := by
      rcases h1 with h | h
      · left
        rw [h]
        rfl
      · right
        rw [h, natAbs_minS]
    have hnb : b.natAbs = 0 ∨ b.natAbs = 2 ^ (w - 1) := by
      rcases h2 with h | h
      · left
        rw [h]
        rfl
      · right
        rw [h, natAbs_minS]
    rcases hna with h | h <;> rcases hnb with h' | h'
    · exact absurd ⟨by omega, by omega⟩ h3
    · rw [h, h', Nat.gcd_zero_left]
    · rw [h, h', Nat.gcd_zero_right]
    · rw [h, h', Nat.gcd_self]

/-! ## The claims -/

/-- Claim C1 (counterexample): at the representable 8-bit signed pairs
`(-128, -1)` and `(-1, -128)` the two algorithms do not agree: the Euclidean
`gcd` reaches the overflowing remainder `-128 % -1` and panics (in every
build mode), producing no value, while `binary_gcd` returns `1`. -/
theorem claim_c1_counterexample :
    gcdSP 8 (-128) (-1) = none ∧ binary_gcdS 8 (-128) (-1) = 1
    ∧ gcdSP 8 (-1) (-128) = none ∧ binary_gcdS 8 (-1) (-128) = 1 :=
  ⟨by decide, by decide, by decide, by decide⟩

/-- Claim C1 (amended): for every supported integer kind and every
representable pair, `gcd(a, b) == binary_gcd(a, b)` — except the two signed
pairs `(min, -1)` and `(-1, min)`, where `gcd` panics on the overflowing
remainder `min % -1` (in every build mode) while `binary_gcd` returns `1`.
On every other pair, including all other pairs involving the signed minimum,
`gcd` completes and the two results are equal. -/
theorem claim_c1_agreement :
    (∀ w m n : Nat, m < 2 ^ w → n < 2 ^ w → binary_gcdU w m n = gcdU m n)
    ∧ (∀ (w : Nat) (a b : Int), 2 ≤ w → inRange w a → inRange w b →
        ¬(a = minS w ∧ b = -1) → ¬(a = -1 ∧ b = minS w) →
        gcdSP w a b = some (binary_gcdS w a b))
    ∧ (∀ w : Nat, 2 ≤ w →
        gcdSP w (minS w) (-1) = none ∧ binary_gcdS w (minS w) (-1) = 1
        ∧ gcdSP w (-1) (minS w) = none ∧ binary_gcdS w (-1) (minS w) = 1) := by
  refine ⟨?_, ?_, ?_⟩
  · intro w m n hm hn
    rw [binary_gcdU_eq hm hn, gcdU_eq]
  · intro w a b hw ha hb h1 h2
    rw [gcdSP_eq hw ha hb h1 h2, agree_signed (by omega : 1 ≤ w) ha hb]
  · intro w hw
    exact ⟨(gcdSP_trap hw).1, (binary_gcdS_min_negone hw).1,
      (gcdSP_trap hw).2, (binary_gcdS_min_negone hw).2⟩

theorem claim_c1_agreement_witness :
    binary_gcdU 8 36 120 = gcdU 36 120
    ∧ gcdSP 8 (-36) 120 = some (binary_gcdS 8 (-36) 120)
    ∧ gcdSP 8 (-128) (-1) = none := by
  refine ⟨claim_c1_agreement.1 8 36 120 (by decide) (by decide),
    claim_c1_agreement.2.1 8 (-36) 120 (by decide) (by decide) (by decide)
      (by decide) (by decide),
    (claim_c1_agreement.2.2 8 (by decide)).1⟩

/-- Claim C2 (counterexample): at the pair `(-128, 0)` of the 8-bit signed
kind — not the signed-minimum self-pair, since the second input is `0` —
the Euclidean `gcd` completes and returns `-128`, not the mathematically
correct non-negative gcd `128`. -/
theorem claim_c2_counterexample :
    gcdSP 8 (-128) 0 = some (-128) ∧ ((Int.gcd (-128) 0 : Nat) : Int) = 128
      ∧ ((-128 : Int) ≠ (0 : Int)) :=
  ⟨by decide, by decide, by decide⟩

/-- Claim C2 (amended): the unsigned Euclidean `gcd` returns the exact gcd
for all inputs.  The signed one returns the non-negative gcd of the absolute
values except at two families of pairs: when that gcd is `2 ^ (w-1)` — which
happens exactly when both inputs lie in `{0, min}` and are not both zero,
i.e. at `(min, min)`, `(min, 0)`, `(0, min)` — the final wrapping `abs`
makes the result `min` itself; and at `(min, -1)` and `(-1, min)` the
remainder `min % -1` overflows and the program panics in every build mode
instead of returning the true gcd `1`. -/
theorem claim_c2_amended :
    (∀ m n : Nat, gcdU m n = Nat.gcd m n)
    ∧ (∀ (w : Nat) (a b : Int), 2 ≤ w → inRange w a → inRange w b →
        ¬(a = minS w ∧ b = -1) → ¬(a = -1 ∧ b = minS w) →
        gcdSP w a b = some (if Nat.gcd a.natAbs b.natAbs = 2 ^ (w - 1) then minS w
          else ((Nat.gcd a.natAbs b.natAbs : Nat) : Int)))
    ∧ (∀ (w : Nat) (a b : Int), inRange w a → inRange w b →
        (Nat.gcd a.natAbs b.natAbs = 2 ^ (w - 1)
          ↔ ((a = 0 ∨ a = minS w) ∧ (b = 0 ∨ b = minS w) ∧ ¬(a = 0 ∧ b = 0))))
    ∧ (∀ w : Nat, 2 ≤ w → gcdSP w (minS w) (-1) = none ∧ gcdSP w (-1) (minS w) = none) := by
  refine ⟨gcdU_eq, ?_, ?_, ?_⟩
  · intro w a b hw ha hb h1 h2
    rw [gcdSP_eq hw ha hb h1 h2, gcdS_eq ha hb]
  · intro w a b ha hb
    exact gcd_eq_pow_iff ha hb
  · intro w hw
    exact gcdSP_trap hw

theorem claim_c2_amended_witness :
    gcdSP 8 (-6) 4 = some (if Nat.gcd (Int.natAbs (-6)) (Int.natAbs 4) = 2 ^ (8 - 1)
      then minS 8 else ((Nat.gcd (Int.natAbs (-6)) (Int.natAbs 4) : Nat) : Int))
    ∧ Nat.gcd (Int.natAbs (-128)) (Int.natAbs 0) = 2 ^ (8 - 1) :=
  ⟨claim_c2_amended.2.1 8 (-6) 4 (by decide) (by decide) (by decide) (by decide) (by decide),
    (claim_c2_amended.2.2.1 8 (-128) 0 (by decide) (by decide)).mpr
      ⟨Or.inr (by decide), Or.inl rfl, by decide⟩⟩

/-- Claim C3: for signed kinds, when both inputs are nonzero and at least one
equals the minimum value, `binary_gcd` returns exactly `1 << shift`, where
`shift` is the trailing-zero count of `a | b`: as a value this is
`2 ^ shift`, reinterpreted as `minS` when `shift = w - 1` (the `(min, min)`
pair); the `1 << shift` itself does not wrap since `shift < w`. -/
theorem claim_c3_min_precheck (w : Nat) (a b : Int) (hw : 1 ≤ w) (ha : inRange w a)
    (hb : inRange w b) (ha0 : a ≠ 0) (hb0 : b ≠ 0) (hm : a = minS w ∨ b = minS w) :
    binary_gcdS w a b = ofU w ((1 <<< tzS w (sor w a b)) % 2 ^ w)
    ∧ (1 <<< tzS w (sor w a b)) % 2 ^ w = 2 ^ tzS w (sor w a b)
    ∧ binary_gcdS w a b = (if tzS w (sor w a b) = w - 1 then minS w
        else ((2 ^ tzS w (sor w a b) : Nat) : Int)) := by
  have hsle : tzS w (sor w a b) ≤ w - 1 := tzS_sor_le hw ha hb ha0 hb0
  refine ⟨?_, ?_, binary_gcdS_minBranch hw ha hb ha0 hb0 hm⟩
  · rw [binary_gcdS_def, if_neg (by push_neg; exact ⟨ha0, hb0⟩), if_pos hm]
  · rw [Nat.shiftLeft_eq, one_mul]
    exact Nat.mod_eq_of_lt ((Nat.pow_lt_pow_iff_right (by norm_num)).mpr (by omega))

theorem claim_c3_min_precheck_witness :
    binary_gcdS 8 (-128) 6 = ofU 8 ((1 <<< tzS 8 (sor 8 (-128) 6)) % 2 ^ 8)
    ∧ binary_gcdS 8 (-128) (-128) = (if tzS 8 (sor 8 (-128) (-128)) = 8 - 1 then minS 8
        else ((2 ^ tzS 8 (sor 8 (-128) (-128)) : Nat) : Int)) :=
  ⟨(claim_c3_min_precheck 8 (-128) 6 (by decide) (by decide) (by decide) (by decide)
      (by decide) (Or.inl (by decide))).1,
    (claim_c3_min_precheck 8 (-128) (-128) (by decide) (by decide) (by decide) (by decide)
      (by decide) (Or.inl (by decide))).2.2⟩

/-- Claim C4: identity with zero.  For unsigned values `gcd(m,0) = gcd(0,m) =
binary_gcd(m,0) = binary_gcd(0,m) = m`; for signed representable `a` all four
results are `|a|`, except `a = min` where they are `min` itself; and
`binary_gcd` realizes the zero case by returning the (wrapping) absolute
value of the bitwise OR of the two inputs. -/
theorem claim_c4_zero_identity (w : Nat) (m : Nat) (a : Int) (hw : 1 ≤ w)
    (ha : inRange w a) :
    (gcdU m 0 = m ∧ gcdU 0 m = m ∧ binary_gcdU w m 0 = m ∧ binary_gcdU w 0 m = m)
    ∧ (a ≠ minS w →
        gcdS w a 0 = ((a.natAbs : Nat) : Int) ∧ gcdS w 0 a = ((a.natAbs : Nat) : Int)
        ∧ binary_gcdS w a 0 = ((a.natAbs : Nat) : Int)
        ∧ binary_gcdS w 0 a = ((a.natAbs : Nat) : Int))
    ∧ (a = minS w →
        gcdS w a 0 = minS w ∧ gcdS w 0 a = minS w
        ∧ binary_gcdS w a 0 = minS w ∧ binary_gcdS w 0 a = minS w)
    ∧ binary_gcdS w a 0 = wabs w (sor w a 0)
    ∧ binary_gcdS w 0 a = wabs w (sor w 0 a) := by
  have h0 := inRange_zero w
  refine ⟨⟨?_, ?_, ?_, ?_⟩, ?_, ?_, ?_, ?_⟩
  · rw [gcdU_eq, Nat.gcd_zero_right]
  · rw [gcdU_eq, Nat.gcd_zero_left]
  · rw [binary_gcdU, if_pos (Or.inr rfl), Nat.or_zero]
  · rw [binary_gcdU, if_pos (Or.inl rfl), Nat.zero_or]
  · intro hne
    have hna : a.natAbs ≠ 2 ^ (w - 1) := fun hc => hne ((eq_minS_iff ha).mpr hc)
    refine ⟨?_, ?_, ?_, ?_⟩
    · rw [gcdS_eq ha h0]
      simp only [Int.natAbs_zero, Nat.gcd_zero_right]
      rw [if_neg hna]
    · rw [gcdS_eq h0 ha]
      simp only [Int.natAbs_zero, Nat.gcd_zero_left]
      rw [if_neg hna]
    · rw [binary_gcdS_zero_right hw ha, wabs, if_neg hne]
    · rw [binary_gcdS_zero_left hw ha, wabs, if_neg hne]
  · intro hmin
    subst hmin
    have hna : (minS w).natAbs = 2 ^ (w - 1) := natAbs_minS w
    refine ⟨?_, ?_, ?_, ?_⟩
    · rw [gcdS_eq ha h0]
      simp only [Int.natAbs_zero, Nat.gcd_zero_right]
      rw [if_pos hna]
    · rw [gcdS_eq h0 ha]
      simp only [Int.natAbs_zero, Nat.gcd_zero_left]
      rw [if_pos hna]
    · rw [binary_gcdS_zero_right hw ha, wabs, if_pos rfl]
    · rw [binary_gcdS_zero_left hw ha, wabs, if_pos rfl]
  · rw [binary_gcdS_def, if_pos (Or.inr rfl)]
  · rw [binary_gcdS_def, if_pos (Or.inl rfl)]

theorem claim_c4_zero_identity_witness :
    (gcdU 9 0 = 9 ∧ gcdU 0 9 = 9 ∧ binary_gcdU 8 9 0 = 9 ∧ binary_gcdU 8 0 9 = 9)
    ∧ gcdS 8 (-9) 0 = ((Int.natAbs (-9) : Nat) : Int)
    ∧ gcdS 8 (-128) 0 = minS 8 :=
  ⟨(claim_c4_zero_identity 8 9 (-9) (by decide) (by decide)).1,
    ((claim_c4_zero_identity 8 9 (-9) (by decide) (by decide)).2.1 (by decide)).1,
    ((claim_c4_zero_identity 8 9 (-128) (by decide) (by decide)).2.2.1 (by decide)).1⟩

/-- Claim C5: for signed kinds, once both inputs are nonzero and neither is
the minimum value, no step after the pre-check traps: the checked signed
`binary_gcd` (which returns `none` on any overflowing `abs`, out-of-range
shift amount, underflowing subtraction, or non-terminating loop) returns
`some` of the unchecked result. -/
theorem claim_c5_no_overflow_after_precheck (w : Nat) (a b : Int) (hw : 2 ≤ w)
    (ha : inRange w a) (hb : inRange w b) (ha0 : a ≠ 0) (hb0 : b ≠ 0)
    (ham : a ≠ minS w) (hbm : b ≠ minS w) :
    binary_gcdSC w a b = some (binary_gcdS w a b) :=
  binary_gcdSC_eq hw ha hb (fun hc => ha0 hc.1) (fun hc => ham hc.1)

theorem claim_c5_no_overflow_after_precheck_witness :
    binary_gcdSC 8 (-36) 120 = some (binary_gcdS 8 (-36) 120) :=
  claim_c5_no_overflow_after_precheck 8 (-36) 120 (by decide) (by decide) (by decide)
    (by decide) (by decide) (by decide) (by decide)

/-- Claim C6 (counterexample): both engines do have fallible paths on signed
kinds.  On the 8-bit signed kind the Euclidean `gcd` panics in every build
mode on the remainder overflow `-128 % -1` at `(-128,-1)` and `(-1,-128)`;
in debug builds it additionally traps on the final `abs` at `(-128,-128)`
and `(-128,0)`, and the debug `binary_gcd` traps on the zero-case `abs` at
`(0,-128)` and `(-128,0)`. -/
theorem claim_c6_counterexample :
    gcdSP 8 (-128) (-1) = none ∧ gcdSP 8 (-1) (-128) = none
    ∧ gcdSC 8 (-128) (-128) = none ∧ gcdSC 8 (-128) 0 = none ∧ gcdSC 8 (-128) (-1) = none
    ∧ binary_gcdSC 8 0 (-128) = none ∧ binary_gcdSC 8 (-128) 0 = none :=
  ⟨by decide, by decide, by decide, by decide, by decide, by decide, by decide⟩

/-- Claim C6 (amended): the unsigned `gcd` and `binary_gcd` never trap.  For
signed kinds: `gcd`'s remainder overflows at `(min,-1)`/`(-1,min)` and
panics there in every build mode; `gcd`'s final `abs` overflows when both
inputs lie in `{0, min}` without being both zero, and `binary_gcd`'s
zero-case `abs` at `(min,0)`/`(0,min)`, which trap in debug builds and wrap
in release; outside the respective pairs the checked (debug) variants return
`some` of the unchecked results and the release `gcd` completes. -/
theorem claim_c6_amended :
    (∀ m n : Nat, gcdUFC (m + 1) m n = some (gcdU m n))
    ∧ (∀ w m n : Nat, m < 2 ^ w → n < 2 ^ w → binary_gcdUC w m n = some (binary_gcdU w m n))
    ∧ (∀ (w : Nat) (a b : Int), 2 ≤ w → inRange w a → inRange w b →
        ¬(a = minS w ∧ b = -1) → ¬(a = -1 ∧ b = minS w) →
        ((a ≠ 0 ∧ a ≠ minS w) ∨ (b ≠ 0 ∧ b ≠ minS w) ∨ (a = 0 ∧ b = 0)) →
        gcdSC w a b = some (gcdS w a b) ∧ gcdSP w a b = some (gcdS w a b))
    ∧ (∀ (w : Nat) (a b : Int), 2 ≤ w → inRange w a → inRange w b →
        ¬(a = 0 ∧ b = minS w) → ¬(a = minS w ∧ b = 0) →
        binary_gcdSC w a b = some (binary_gcdS w a b))
    ∧ (∀ w : Nat, 2 ≤ w → gcdSP w (minS w) (-1) = none ∧ gcdSP w (-1) (minS w) = none) := by
  refine ⟨?_, ?_, ?_, ?_, ?_⟩
  · intro m n
    exact gcdUFC_eq (m + 1) m n (Nat.lt_succ_self m)
  · intro w m n hm hn
    exact binary_gcdUC_eq hm hn
  · intro w a b hw ha hb h1 h2 h3
    exact ⟨gcdSC_eq hw ha hb h1 h2 h3, gcdSP_eq hw ha hb h1 h2⟩
  · intro w a b hw ha hb h1 h2
    exact binary_gcdSC_eq hw ha hb h1 h2
  · intro w hw
    exact gcdSP_trap hw

theorem claim_c6_amended_witness :
    gcdUFC 10 9 6 = some (gcdU 9 6) ∧ binary_gcdUC 8 9 6 = some (binary_gcdU 8 9 6)
    ∧ (gcdSC 8 (-6) 4 = some (gcdS 8 (-6) 4) ∧ gcdSP 8 (-6) 4 = some (gcdS 8 (-6) 4))
    ∧ binary_gcdSC 8 (-6) 4 = some (binary_gcdS 8 (-6) 4)
    ∧ gcdSP 8 (-128) (-1) = none :=
  ⟨claim_c6_amended.1 9 6,
    claim_c6_amended.2.1 8 9 6 (by decide) (by decide),
    claim_c6_amended.2.2.1 8 (-6) 4 (by decide) (by decide) (by decide) (by decide)
      (by decide) (Or.inl ⟨by decide, by decide⟩),
    claim_c6_amended.2.2.2.1 8 (-6) 4 (by decide) (by decide) (by decide) (by decide)
      (by decide),
    (claim_c6_amended.2.2.2.2 8 (by decide)).1⟩

/-- Claim C7: the four 8-bit signed border cases of the source's
`border_cases` test: `binary_gcd(-128,-128) = -128`, `binary_gcd(-128,127) =
1`, `binary_gcd(127,-128) = 1`, `binary_gcd(127,127) = 127`. -/
theorem claim_c7_border_cases :
    binary_gcdS 8 (-128) (-128) = -128 ∧ binary_gcdS 8 (-128) 127 = 1
    ∧ binary_gcdS 8 127 (-128) = 1 ∧ binary_gcdS 8 127 127 = 127 :=
  ⟨by decide, by decide, by decide, by decide⟩

/-- Claim C8: commutativity of the Euclidean `gcd` for every supported kind
and all representable values. -/
theorem claim_c8_commutative :
    (∀ m n : Nat, gcdU m n = gcdU n m)
    ∧ (∀ (w : Nat) (a b : Int), inRange w a → inRange w b →
        gcdS w a b = gcdS w b a) := by
  constructor
  · intro m n
    rw [gcdU_eq, gcdU_eq, Nat.gcd_comm]
  · intro w a b ha hb
    rw [gcdS_eq ha hb, gcdS_eq hb ha, Nat.gcd_comm b.natAbs a.natAbs]

theorem claim_c8_commutative_witness :
    gcdU 36 120 = gcdU 120 36 ∧ gcdS 8 (-36) 120 = gcdS 8 120 (-36) :=
  ⟨claim_c8_commutative.1 36 120,
    claim_c8_commutative.2 8 (-36) 120 (by decide) (by decide)⟩

/-- Claim C9: both algorithms terminate on every input of every supported
kind.  The Euclidean loops are fuel-indifferent once the fuel exceeds the
magnitude of the first argument (the remainder strictly decreases, so
`|m| + 1` iterations suffice and the checked loop reports completion), and
the Stein loop is fuel-indifferent once the fuel reaches `m + n` (the loop
value strictly decreases in magnitude). -/
theorem claim_c9_termination :
    (∀ f g m n : Nat, m < f → m < g → gcdUF f m n = gcdUF g m n)
    ∧ (∀ m n : Nat, gcdUFC (m + 1) m n = some (gcdU m n))
    ∧ (∀ (f g : Nat) (a b : Int), a.natAbs < f → a.natAbs < g → gcdSF f a b = gcdSF g a b)
    ∧ (∀ w f g m n : Nat, n % 2 = 1 → m + n ≤ f → m + n ≤ g →
        steinLoopF w f m n = steinLoopF w g m n) := by
  refine ⟨?_, ?_, gcdSF_fuel, ?_⟩
  · intro f g m n hf hg
    rw [gcdUF_eq f m n hf, gcdUF_eq g m n hg]
  · intro m n
    exact gcdUFC_eq (m + 1) m n (Nat.lt_succ_self m)
  · intro w f g m n hn hf hg
    rw [steinLoop_eq w f m n hn hf, steinLoop_eq w g m n hn hg]

theorem claim_c9_termination_witness :
    gcdUF 10 9 6 = gcdUF 37 9 6 ∧ gcdUFC 10 9 6 = some (gcdU 9 6)
    ∧ gcdSF 10 (-9) 6 = gcdSF 37 (-9) 6 ∧ steinLoopF 8 16 9 7 = steinLoopF 8 37 9 7 :=
  ⟨claim_c9_termination.1 10 37 9 6 (by decide) (by decide),
    claim_c9_termination.2.1 9 6,
    claim_c9_termination.2.2.1 10 37 (-9) 6 (by decide) (by decide),
    claim_c9_termination.2.2.2 8 16 37 9 7 (by decide) (by decide) (by decide)⟩

/-- Claim C10: the unsigned `binary_gcd` is total and panic-free on every
representable input pair: the checked variant — which returns `none` if a
shift amount reaches the bit width, if a subtraction would underflow, or if
the loop failed to terminate within its fuel — returns `some` of the
unchecked result. -/
theorem claim_c10_unsigned_safety (w m n : Nat) (hm : m < 2 ^ w) (hn : n < 2 ^ w) :
    binary_gcdUC w m n = some (binary_gcdU w m n) :=
  binary_gcdUC_eq hm hn

theorem claim_c10_unsigned_safety_witness :
    binary_gcdUC 8 36 120 = some (binary_gcdU 8 36 120) :=
  claim_c10_unsigned_safety 8 36 120 (by decide) (by decide)

end GcdBench
